import Mathlib

set_option autoImplicit false

/-!
Verification of the Orionis auto-sort file pipeline.

The development shallowly embeds the path-containment guard
(`safe_path_join`), the extension classifier (`_get_file_category`), the
file-stability detectors of both the improved and the legacy sorter, the
collision-free destination resolver (`_get_unique_destination`), the
copy-verify-delete move of the legacy sorter, and the per-file worker
pipeline (`SortWorker._process_file`).  Filesystem paths are modelled as
lists of components below the filesystem root; filesystem answers (sizes,
existence, error outcomes) are oracle arguments.
-/

/-- An absolute filesystem path, as the list of its components below the
filesystem root.  A `pathlib.Path` is modelled by its parts. -/
abbrev FsPath := List String

/-- Canonicalisation worker: walks the components, dropping `.` and empty
components and letting `..` discard the most recently kept component (at the
filesystem root, `..` stays at the root), exactly as `Path.resolve()`
normalises a path on a symlink-free filesystem.  The accumulator holds the
kept components in reverse order. -/
def resolveAux (acc : List String) : List String → List String
  | [] => acc
  | s :: rest =>
    if s = "." ∨ s = "" then resolveAux acc rest
    else if s = ".." then resolveAux acc.tail rest
    else resolveAux (s :: acc) rest

/-- Canonical form of a path: models `Path.resolve()` on a symlink-free
filesystem. -/
def resolve (p : FsPath) : FsPath := (resolveAux [] p).reverse

/-- Containment test: `isDescendantOf p base` models `p.relative_to(base)` succeeding: the
components of `base` are an initial run of the components of `p` (the path
itself counts as its own descendant, since `relative_to` then returns `.`). -/
def isDescendantOf : FsPath → FsPath → Bool
  | _, [] => true
  | [], _ :: _ => false
  | a :: as, b :: bs => a == b && isDescendantOf as bs

/-- Function `safe_path_join` — `src/orionis/sorter.py` lines 16–35.  Joins the base
path with the additional components, canonicalises the joined result and the
base, and checks containment with `relative_to`; when the check fails the
function raises `ValueError` (modelled as `Except.error`). -/
def safe_path_join (base_path : FsPath) (additional_parts : List String) :
    Except String FsPath :=
  if isDescendantOf (resolve (base_path ++ additional_parts)) (resolve base_path) then
    Except.ok (resolve (base_path ++ additional_parts))
  else Except.error "Path traversal detected"

theorem isDescendantOf_refl (l : FsPath) : isDescendantOf l l = true := by
  induction l with
  | nil => rfl
  | cons a as ih => simp [isDescendantOf, ih]

theorem resolveAux_append (xs ys : List String) :
    ∀ acc, resolveAux acc (xs ++ ys) = resolveAux (resolveAux acc xs) ys := by
  induction xs with
  | nil => intro acc; rfl
  | cons s rest ih =>
    intro acc
    simp only [List.cons_append, resolveAux]
    by_cases h1 : s = "." ∨ s = ""
    · simp [h1, ih]
    · by_cases h2 : s = ".."
      · simp [h1, h2, ih]
      · simp [h1, h2, ih]

theorem resolve_append_updot (base : FsPath) :
    resolve (base ++ ["Images", ".."]) = resolve base := by
  unfold resolve
  rw [resolveAux_append]
  simp [resolveAux]

/-- C1: for every root and every list of additional components,
`safe_path_join` either returns a path that is a descendant of the
canonicalized root or fails; whenever it returns a path, that path lies
under the canonicalized root. -/
theorem safe_path_join_stays_inside (base_path : FsPath)
    (additional_parts : List String) (p : FsPath)
    (h : safe_path_join base_path additional_parts = Except.ok p) :
    isDescendantOf p (resolve base_path) = true := by
  unfold safe_path_join at h
  by_cases hc :
      isDescendantOf (resolve (base_path ++ additional_parts))
        (resolve base_path) = true
  · simp only [hc, if_true] at h
    cases h
    exact hc
  · simp only [hc] at h
    simp at h

theorem safe_path_join_stays_inside_w :
    isDescendantOf ["home", "u", "Downloads", "Images"]
      (resolve ["home", "u", "Downloads"]) = true :=
  safe_path_join_stays_inside ["home", "u", "Downloads"] ["Images"]
    ["home", "u", "Downloads", "Images"] (by rfl)

/-- C9: the containment check is non-strict.  Joining components that
canonicalize back to the root itself (such as `Images/..`) succeeds and
returns the root; an error is raised exactly when the joined path
canonicalizes strictly outside the root. -/
theorem safe_path_join_nonstrict :
    (∀ base : FsPath,
        safe_path_join base ["Images", ".."] = Except.ok (resolve base))
    ∧ (∀ (base : FsPath) (parts : List String),
        (∃ e, safe_path_join base parts = Except.error e)
          ↔ isDescendantOf (resolve (base ++ parts)) (resolve base) = false) := by
  constructor
  · intro base
    unfold safe_path_join
    rw [resolve_append_updot, isDescendantOf_refl]
    simp
  · intro base parts
    unfold safe_path_join
    by_cases hc :
        isDescendantOf (resolve (base ++ parts)) (resolve base) = true
    · simp [hc]
    · simp only [Bool.not_eq_true] at hc
      simp [hc]

/-- Python `str.lower()` over the characters of a string (ASCII case fold,
which is all that file extensions use). -/
def strToLower (s : String) : String := ⟨s.toList.map Char.toLower⟩

/-- The category table: a Python `dict` from category name to its extension
list, in declaration order. -/
abbrev CategoryMap := List (String × List String)

/-- Method `SortWorker._get_file_category` — `src/orionis/sorter.py` lines 151–157.
Lowercases the extension and scans the categories in declaration order for
the first whose extension list contains it, defaulting to `Others`. -/
def get_file_category (cats : CategoryMap) (file_extension : String) : String :=
  match cats.find? (fun c => c.2.contains (strToLower file_extension)) with
  | some c => c.1
  | none => "Others"

/-- Modelled from the spec: the reference classifier of §4.3, written as the
spec phrases it — lowercase the extension, then a linear first-match scan,
returning `Others` when no category matches. -/
def classifySpec (cats : CategoryMap) (ext : String) : String :=
  match cats with
  | [] => "Others"
  | (name, exts) :: rest =>
    if exts.contains (strToLower ext) then name else classifySpec rest ext

theorem find?_cons_pos {α : Type} (p : α → Bool) (a : α) (l : List α)
    (h : p a = true) : List.find? p (a :: l) = some a :=
  List.find?_cons_of_pos l h

theorem find?_cons_neg {α : Type} (p : α → Bool) (a : α) (l : List α)
    (h : p a = false) : List.find? p (a :: l) = List.find? p l :=
  List.find?_cons_of_neg l (by simp [h])

/-- C7: classification agrees with the reference definition for every
extension and every category map, and it is case-insensitive; in particular
`.JPG` and `.jpg` classify identically. -/
theorem get_file_category_spec :
    (∀ (cats : CategoryMap) (ext : String),
        get_file_category cats ext = classifySpec cats ext)
    ∧ (∀ cats : CategoryMap,
        get_file_category cats ".JPG" = get_file_category cats ".jpg") := by
  constructor
  · intro cats ext
    induction cats with
    | nil => rfl
    | cons c rest ih =>
      obtain ⟨name, exts⟩ := c
      cases h : exts.contains (strToLower ext) with
      | true =>
        simp only [get_file_category, classifySpec]
        rw [find?_cons_pos (fun c : String × List String =>
          c.2.contains (strToLower ext)) (name, exts) rest h, if_pos h]
      | false =>
        simp only [get_file_category, classifySpec]
        rw [find?_cons_neg (fun c : String × List String =>
          c.2.contains (strToLower ext)) (name, exts) rest h,
          if_neg (by intro hc; rw [h] at hc; exact Bool.false_ne_true hc)]
        exact ih
  · intro cats
    have hl : strToLower ".JPG" = strToLower ".jpg" := by rfl
    simp only [get_file_category, hl]

/-- Constant `STABLE_FILE_MAX_ATTEMPTS` — `src/orionis/sorter.py` line 12 (the legacy
module's local `max_attempts` has the same value). -/
def STABLE_FILE_MAX_ATTEMPTS : Nat := 10

/-- The filesystem as the stability detectors observe it: `obs t` is the
file's size at the detector's `t`-th observation, `none` when the file does
not exist (or `stat` fails) there.  Observation 0 is the initial
existence/size check; the polling loop reads observations 1, 2, …. -/
abbrev SizeTrace := Nat → Option Nat

inductive PollResult where
  | stable (t : Nat)
  | vanished
  | exhausted
deriving DecidableEq

/-- The polling loop shared verbatim by both detectors (sorter.py lines
137–148; orionis_auto_sort.py lines 280–302): at observation `t` with `fuel`
attempts left, return `stable t` when the size read equals the previous read
and is positive, `vanished` when the file is gone, and `exhausted` when the
attempt budget runs out.  `prev` starts at `-1` (hence `Int`), so the first
poll never matches. -/
def pollLoop (obs : SizeTrace) (prev : Int) : Nat → Nat → PollResult
  | _, 0 => PollResult.exhausted
  | t, fuel + 1 =>
    match obs t with
    | none => PollResult.vanished
    | some current =>
      if prev = (current : Int) ∧ 0 < current then PollResult.stable t
      else pollLoop obs (current : Int) (t + 1) fuel

/-- Method `SortWorker._wait_for_file_completion` — `src/orionis/sorter.py` lines
122–149.  Missing file: `false`.  Size below 1024: sleep once and report
whether the file still exists.  Otherwise run the polling loop with a budget
of `STABLE_FILE_MAX_ATTEMPTS`; only a stable result yields `true`. -/
def wait_for_file_completion (obs : SizeTrace) : Bool :=
  match obs 0 with
  | none => false
  | some file_size =>
    if file_size < 1024 then (obs 1).isSome
    else
      match pollLoop obs (-1) 1 STABLE_FILE_MAX_ATTEMPTS with
      | PollResult.stable _ => true
      | _ => false

/-- Legacy `FileSorter.wait_for_file_completion` — `orionis_auto_sort.py`
lines 265–305.  Head and polling loop match the improved detector's
line for line; the difference is the return on an exhausted attempt budget,
where the legacy code performs one more existence check and returns its
result instead of `false`. -/
def legacy_wait_for_file_completion (obs : SizeTrace) : Bool :=
  match obs 0 with
  | none => false
  | some file_size =>
    if file_size < 1024 then (obs 1).isSome
    else
      match pollLoop obs (-1) 1 STABLE_FILE_MAX_ATTEMPTS with
      | PollResult.stable _ => true
      | PollResult.vanished => false
      | PollResult.exhausted => (obs 11).isSome

theorem pollLoop_stable_sound (obs : SizeTrace) :
    ∀ (fuel t : Nat) (prev : Int) (k : Nat),
      pollLoop obs prev t fuel = PollResult.stable k →
      t ≤ k ∧ k < t + fuel ∧ (∀ j, t ≤ j → j ≤ k → (obs j).isSome = true) ∧
        ∃ v : Nat, obs k = some v ∧ 0 < v ∧
          ((k = t ∧ prev = (v : Int)) ∨ (t < k ∧ obs (k - 1) = some v)) := by
  intro fuel
  induction fuel with
  | zero => intro t prev k h; simp [pollLoop] at h
  | succ fuel ih =>
    intro t prev k h
    simp only [pollLoop] at h
    split at h
    · simp at h
    · rename_i current hobs
      split at h
      · rename_i hc
        have hk : t = k := by injection h
        subst hk
        refine ⟨le_refl t, by omega, ?_, current, hobs, hc.2, Or.inl ⟨rfl, hc.1⟩⟩
        intro j h1 h2
        have hj : j = t := le_antisymm h2 h1
        rw [hj, hobs]; rfl
      · rename_i hc
        obtain ⟨h1, h2, h3, v, hv, hvpos, hcase⟩ := ih (t + 1) (current : Int) k h
        refine ⟨by omega, by omega, ?_, v, hv, hvpos, ?_⟩
        · intro j hj1 hj2
          by_cases hjt : j = t
          · rw [hjt, hobs]; rfl
          · exact h3 j (by omega) hj2
        · rcases hcase with ⟨hk, hprev⟩ | ⟨hk, hmem⟩
          · right
            refine ⟨by omega, ?_⟩
            have hk1 : k - 1 = t := by omega
            have hcv : current = v := by exact_mod_cast hprev
            rw [hk1, hobs, hcv]
          · right; exact ⟨by omega, hmem⟩

theorem pollLoop_stable_complete (obs : SizeTrace) :
    ∀ (fuel t : Nat) (prev : Int) (k : Nat),
      t < k → k < t + fuel →
      (∀ j, t ≤ j → j ≤ k → (obs j).isSome = true) →
      obs k = obs (k - 1) → (∃ v : Nat, obs k = some v ∧ 0 < v) →
      ∃ m, pollLoop obs prev t fuel = PollResult.stable m := by
  intro fuel
  induction fuel with
  | zero => intro t prev k h1 h2 _ _ _; omega
  | succ fuel ih =>
    intro t prev k h1 h2 hchain hpair hval
    obtain ⟨v, hv, hvpos⟩ := hval
    have hobs_t : (obs t).isSome = true := hchain t (le_refl t) (by omega)
    obtain ⟨c, hc⟩ := Option.isSome_iff_exists.mp hobs_t
    by_cases hcond : prev = (c : Int) ∧ 0 < c
    · refine ⟨t, ?_⟩
      simp [pollLoop, hc, hcond]
    · have hstep : ∀ fl, pollLoop obs prev t (fl + 1) = pollLoop obs (c : Int) (t + 1) fl := by
        intro fl
        simp only [pollLoop, hc]
        rw [if_neg hcond]
      by_cases hk : t + 1 = k
      · subst hk
        have hk1 : t + 1 - 1 = t := by omega
        rw [hk1, hc] at hpair
        rw [hpair] at hv
        have hcv : c = v := by injection hv
        have hcpos : 0 < c := by omega
        cases fuel with
        | zero => omega
        | succ f =>
          refine ⟨t + 1, ?_⟩
          rw [hstep (f + 1)]
          simp [pollLoop, hpair, hcpos]
      · obtain ⟨m, hm⟩ := ih (t + 1) (c : Int) k (by omega) (by omega)
          (fun j hj1 hj2 => hchain j (by omega) hj2) hpair ⟨v, hv, hvpos⟩
        refine ⟨m, ?_⟩
        rw [hstep fuel, hm]

theorem pollLoop_stable_first (obs : SizeTrace) :
    ∀ (fuel t : Nat) (prev : Int) (k : Nat),
      pollLoop obs prev t fuel = PollResult.stable k →
      ∀ j, t < j → j < k →
        ¬(obs j = obs (j - 1) ∧ ∃ v : Nat, obs j = some v ∧ 0 < v) := by
  intro fuel
  induction fuel with
  | zero => intro t prev k h; simp [pollLoop] at h
  | succ fuel ih =>
    intro t prev k h j hj1 hj2
    simp only [pollLoop] at h
    split at h
    · simp at h
    · rename_i c hobs
      split at h
      · rename_i hcond
        have hk : t = k := by injection h
        omega
      · rename_i hcond
        by_cases hjt : j = t + 1
        · subst hjt
          rintro ⟨hpair, v, hv, hvpos⟩
          have hk1 : t + 1 - 1 = t := by omega
          rw [hk1, hobs] at hpair
          rw [hpair] at hv
          have hcv : c = v := by injection hv
          have hcpos : 0 < c := by omega
          cases fuel with
          | zero => simp [pollLoop] at h
          | succ f =>
            simp only [pollLoop] at h
            rw [hpair] at h
            simp [hcpos] at h
            omega
        · exact ih (t + 1) (c : Int) k h j (by omega) hj2

/-- C5: for a file whose initial size is at least 1024 bytes, the improved
stability wait returns `true` exactly when, within the 10-poll budget, two
consecutive size reads are equal and positive; it stops at the first such
pair (a constant 2000-byte file is declared stable at poll 2, not 10); and
an exhausted budget yields `false`. -/
theorem wait_for_file_completion_spec (obs : SizeTrace) (n : Nat)
    (h0 : obs 0 = some n) (hn : 1024 ≤ n) :
    (wait_for_file_completion obs = true ↔
      ∃ k, 2 ≤ k ∧ k ≤ 10 ∧ (∀ j, 1 ≤ j → j ≤ k → (obs j).isSome = true) ∧
        obs k = obs (k - 1) ∧ ∃ v : Nat, obs k = some v ∧ 0 < v)
    ∧ (∀ k, pollLoop obs (-1) 1 STABLE_FILE_MAX_ATTEMPTS = PollResult.stable k →
        ∀ j, 2 ≤ j → j < k →
          ¬(obs j = obs (j - 1) ∧ ∃ v : Nat, obs j = some v ∧ 0 < v))
    ∧ pollLoop (fun _ => some 2000) (-1) 1 STABLE_FILE_MAX_ATTEMPTS
        = PollResult.stable 2
    ∧ (pollLoop obs (-1) 1 STABLE_FILE_MAX_ATTEMPTS = PollResult.exhausted →
        wait_for_file_completion obs = false) := by
  have hwait : wait_for_file_completion obs =
      match pollLoop obs (-1) 1 STABLE_FILE_MAX_ATTEMPTS with
      | PollResult.stable _ => true
      | _ => false := by
    simp only [wait_for_file_completion, h0]
    rw [if_neg (by omega)]
  refine ⟨?_, ?_, by rfl, ?_⟩
  · constructor
    · intro htrue
      rw [hwait] at htrue
      cases hp : pollLoop obs (-1) 1 STABLE_FILE_MAX_ATTEMPTS with
      | stable k =>
        obtain ⟨h1, h2, hchain, v, hv, hvpos, hcase⟩ :=
          pollLoop_stable_sound obs STABLE_FILE_MAX_ATTEMPTS 1 (-1) k hp
        rcases hcase with ⟨hk1, hprev⟩ | ⟨hlt, hprevobs⟩
        · exfalso
          have : (0 : Int) ≤ (v : Int) := Int.natCast_nonneg v
          omega
        · refine ⟨k, by omega, ?_, hchain, ?_, v, hv, hvpos⟩
          · have : k < 1 + STABLE_FILE_MAX_ATTEMPTS := h2
            simp [STABLE_FILE_MAX_ATTEMPTS] at this
            omega
          · rw [hv, hprevobs]
      | vanished => rw [hp] at htrue; simp at htrue
      | exhausted => rw [hp] at htrue; simp at htrue
    · rintro ⟨k, hk2, hk10, hchain, hpair, v, hv, hvpos⟩
      obtain ⟨m, hm⟩ := pollLoop_stable_complete obs STABLE_FILE_MAX_ATTEMPTS 1
        (-1) k (by omega) (by simp [STABLE_FILE_MAX_ATTEMPTS]; omega) hchain hpair
        ⟨v, hv, hvpos⟩
      rw [hwait, hm]
  · intro k hp j hj2 hjk
    exact pollLoop_stable_first obs STABLE_FILE_MAX_ATTEMPTS 1 (-1) k hp j
      (by omega) hjk
  · intro hp
    rw [hwait, hp]

theorem wait_for_file_completion_spec_w :
    ((wait_for_file_completion (fun _ => some 2000) = true ↔
      ∃ k, 2 ≤ k ∧ k ≤ 10 ∧
        (∀ j, 1 ≤ j → j ≤ k → ((fun _ => some 2000 : SizeTrace) j).isSome = true) ∧
        (fun _ => some 2000 : SizeTrace) k = (fun _ => some 2000 : SizeTrace) (k - 1) ∧
        ∃ v : Nat, (fun _ => some 2000 : SizeTrace) k = some v ∧ 0 < v)
    ∧ (∀ k, pollLoop (fun _ => some 2000) (-1) 1 STABLE_FILE_MAX_ATTEMPTS
          = PollResult.stable k →
        ∀ j, 2 ≤ j → j < k →
          ¬((fun _ => some 2000 : SizeTrace) j = (fun _ => some 2000 : SizeTrace) (j - 1) ∧
            ∃ v : Nat, (fun _ => some 2000 : SizeTrace) j = some v ∧ 0 < v))
    ∧ pollLoop (fun _ => some 2000) (-1) 1 STABLE_FILE_MAX_ATTEMPTS
        = PollResult.stable 2
    ∧ (pollLoop (fun _ => some 2000) (-1) 1 STABLE_FILE_MAX_ATTEMPTS
          = PollResult.exhausted →
        wait_for_file_completion (fun _ => some 2000) = false)) :=
  wait_for_file_completion_spec (fun _ => some 2000) 2000 rfl (by omega)

/-- A file that keeps growing: every observation sees a strictly larger
size, so no two consecutive reads ever agree. -/
def growingTrace : SizeTrace := fun t => some (2000 + t)

/-- C8 counterexample: on a file that grows at every poll, the budget is
exhausted and the legacy detector returns `true` (the file still exists at
its final check) while the improved detector returns `false`. -/
theorem wait_variants_differ :
    legacy_wait_for_file_completion growingTrace = true
    ∧ wait_for_file_completion growingTrace = false := by
  constructor <;> rfl

/-- C8 amended: the two stability detectors agree on every observation
sequence except when the poll budget is exhausted without two equal
consecutive positive reads; there the improved detector returns `false`
while the legacy detector returns the result of one final existence
check. -/
theorem wait_variants_agree_unless_exhausted (obs : SizeTrace) :
    legacy_wait_for_file_completion obs = wait_for_file_completion obs
    ∨ (pollLoop obs (-1) 1 STABLE_FILE_MAX_ATTEMPTS = PollResult.exhausted
        ∧ wait_for_file_completion obs = false
        ∧ legacy_wait_for_file_completion obs = (obs 11).isSome) := by
  unfold legacy_wait_for_file_completion wait_for_file_completion
  cases h0 : obs 0 with
  | none => left; rfl
  | some n =>
    dsimp only
    by_cases hn : n < 1024
    · left; rw [if_pos hn, if_pos hn]
    · rw [if_neg hn, if_neg hn]
      cases hp : pollLoop obs (-1) 1 STABLE_FILE_MAX_ATTEMPTS with
      | stable k => left; rfl
      | vanished => left; rfl
      | exhausted =>
        cases h11 : (obs 11).isSome with
        | false => left; rfl
        | true => right; exact ⟨rfl, rfl, rfl⟩

/-- The two files a single move touches: the sizes of the source and of the
destination (`none` = the file does not exist). -/
structure MoveFS where
  src : Option Nat
  dst : Option Nat
deriving DecidableEq

/-- Transfer step of the legacy `move_file` — `orionis_auto_sort.py` lines
176–205.  `s` is the source size (the destination does not exist
beforehand, by unique-name choice).  `copyResult` is the destination size
observed after the `shutil.copy2` attempt, `none` when the copy raised.
The source is unlinked only when the copy produced a destination whose size
is positive and exactly equals the source size (`unlinkOk` models the
guarded `unlink` itself failing, which keeps the source).  When the copy
raised, the code falls back to one direct `shutil.move` attempt
(`fallbackOk` tells whether it succeeds); a failed fallback leaves the
source in place. -/
def move_file_transfer (s : Nat) (copyResult : Option Nat)
    (unlinkOk fallbackOk : Bool) : MoveFS :=
  match copyResult with
  | some d =>
    if 0 < d ∧ s = d then
      if unlinkOk then { src := none, dst := some d }
      else { src := some s, dst := some d }
    else { src := some s, dst := some d }
  | none =>
    if fallbackOk then { src := none, dst := some s }
    else { src := some s, dst := none }

/-- Actual transfer of `SortWorker._process_file` — `src/orionis/sorter.py`
line 102: a single `shutil.move`, that is a rename, or `copy2` followed by
an unconditional unlink of the source with no size verification. -/
def shutil_move_transfer (s : Nat) (copyResult : Option Nat) : MoveFS :=
  match copyResult with
  | some d => { src := none, dst := some d }
  | none => { src := some s, dst := none }

/-- C2: the copy-verify-delete transfer of `move_file` never loses the
source — whenever the source is gone, the destination holds exactly the
source's bytes — whereas the improved worker's actual `shutil.move`
transfer removes the source even when the copy silently wrote a short
destination (source of 2000 bytes, destination of 1000). -/
theorem move_file_transfer_safe :
    (∀ (s : Nat) (copyResult : Option Nat) (unlinkOk fallbackOk : Bool),
        (move_file_transfer s copyResult unlinkOk fallbackOk).src = none →
        (move_file_transfer s copyResult unlinkOk fallbackOk).dst = some s)
    ∧ (shutil_move_transfer 2000 (some 1000)).src = none
    ∧ (shutil_move_transfer 2000 (some 1000)).dst ≠ some 2000 := by
  refine ⟨?_, rfl, by decide⟩
  intro s copyResult unlinkOk fallbackOk h
  match copyResult with
  | some d =>
    by_cases hc : 0 < d ∧ s = d
    · cases unlinkOk with
      | true => simp [move_file_transfer, hc]
      | false => simp [move_file_transfer, hc] at h
    · simp [move_file_transfer, hc] at h
  | none =>
    cases fallbackOk with
    | true => simp [move_file_transfer]
    | false => simp [move_file_transfer] at h

/-- Python's substring test `needle in hay` over character lists. -/
def hasSub (needle : List Char) : List Char → Bool
  | [] => needle.isEmpty
  | hd :: t => needle.isPrefixOf (hd :: t) || hasSub needle t

/-- Splits a relative filename on the path separator, one component per
entry (separator handling of `pathlib`: empty runs and `.` components are
dropped at construction). -/
def splitSlashAux : List Char → List Char → List String
  | [], cur => [⟨cur.reverse⟩]
  | c :: rest, cur =>
    if c == '/' then ⟨cur.reverse⟩ :: splitSlashAux rest []
    else splitSlashAux rest (c :: cur)

/-- The components `pathlib` keeps when parsing a relative filename. -/
def splitComponents (filename : String) : List String :=
  (splitSlashAux filename.toList []).filter (fun s => !(s == "" || s == "."))

/-- Model of `Path(filename).name`: the final component (empty when there is none). -/
def lastComponent (filename : String) : String :=
  (splitComponents filename).getLastD ""

/-- Index, from the front, of the last `.` among the characters. -/
def lastDotIdx (cs : List Char) : Option Nat :=
  match cs.reverse.findIdx? (fun c => c == '.') with
  | some j => some (cs.length - 1 - j)
  | none => none

/-- Stem/suffix split of a final component, as in `pathlib`: the suffix starts at
the last dot, provided that dot is neither the leading nor the trailing
character; otherwise the stem is the whole name and the suffix empty. -/
def stemAndSuffix (name : String) : String × String :=
  match lastDotIdx name.toList with
  | some i =>
    if 0 < i ∧ i + 1 < name.toList.length then
      (⟨name.toList.take i⟩, ⟨name.toList.drop i⟩)
    else (name, "")
  | none => (name, "")

/-- Characters the stem sanitizer keeps (sorter.py line 172): Python
isalnum over ASCII, plus space, hyphen and underscore. -/
def keepChar (c : Char) : Bool := c.isAlphanum || c == ' ' || c == '-' || c == '_'

/-- Python strip() after the sanitizer filter: the only whitespace that can
remain is the plain space, so stripping spaces from both ends is exact. -/
def trimChars (cs : List Char) : List Char :=
  ((cs.dropWhile (fun c => c == ' ')).reverse.dropWhile (fun c => c == ' ')).reverse

/-- The stem sanitizer of sorter.py line 172: keep only the characters of
`keepChar`, then strip. -/
def sanitizeStem (stem : String) : String :=
  ⟨trimChars (stem.toList.filter keepChar)⟩

/-- The sanitization trigger of sorter.py line 171: the stem holds a
dot-dot substring, a slash, or a backslash. -/
def stemNeedsSanitize (stem : String) : Bool :=
  hasSub ['.', '.'] stem.toList || stem.toList.contains '/' ||
    stem.toList.contains '\\'

/-- The stem used for every numbered collision candidate: recomputed from
`filename` on each loop iteration, sanitized only when it contains
separator-like characters. -/
def effectiveStem (filename : String) : String :=
  let st := (stemAndSuffix (lastComponent filename)).1
  if stemNeedsSanitize st then sanitizeStem st else st

/-- Decimal digits of `n`, most significant first; fuel-driven so that it
reduces by iota (any fuel above `n` gives the same digits). -/
def natDigits (fuel n : Nat) : List Char :=
  match fuel with
  | 0 => []
  | fuel + 1 =>
    if n < 10 then [Nat.digitChar n]
    else natDigits fuel (n / 10) ++ [Nat.digitChar (n % 10)]

/-- Decimal rendering of `n`, as Python's `str(counter)` produces it. -/
def natRepr (n : Nat) : String := ⟨natDigits (n + 1) n⟩

/-- The `k`-th destination candidate tried by `_get_unique_destination`
(sorter.py lines 159–175): candidate 0 joins the folder with the filename;
candidate `k ≥ 1` joins the folder with the stem, an underscore, the
counter `k`, and the suffix. -/
def candSeq (folder : FsPath) (filename : String) : Nat → FsPath
  | 0 => folder ++ splitComponents filename
  | k + 1 =>
    folder ++ [effectiveStem filename ++ "_" ++ natRepr (k + 1) ++
      (stemAndSuffix (lastComponent filename)).2]

/-- The `while destination_path.exists()` loop: existence is membership in
the list `fs` of existing paths; the fuel argument drives the recursion and
is chosen large enough to be irrelevant (`findFree_not_mem`). -/
def findFree (fs : List FsPath) (folder : FsPath) (filename : String) :
    Nat → Nat → FsPath
  | k, 0 => candSeq folder filename k
  | k, fuel + 1 =>
    if candSeq folder filename k ∈ fs then findFree fs folder filename (k + 1) fuel
    else candSeq folder filename k

/-- The filename validation of sorter.py line 162: reject a dot-dot
substring anywhere or a leading slash (the redundant third test of that
line is subsumed by the first). -/
def filename_rejected (filename : String) : Bool :=
  hasSub ['.', '.'] filename.toList ||
    (match filename.toList with | c :: _ => c == '/' | [] => false)

/-- Method `SortWorker._get_unique_destination` — `src/orionis/sorter.py` lines
159–175.  Rejects filenames with a `..` substring or a leading slash, then
returns the first candidate that does not exist. -/
def get_unique_destination (fs : List FsPath) (folder : FsPath)
    (filename : String) : Except String FsPath :=
  if filename_rejected filename then Except.error "Invalid filename detected"
  else Except.ok (findFree fs folder filename 0 (fs.length + 2))

theorem strAppend_data (a b : String) : (a ++ b).data = a.data ++ b.data := rfl

theorem mem_of_hasSub (a : Char) (l : List Char) :
    ∀ hay, hasSub (a :: l) hay = true → a ∈ hay := by
  intro hay
  induction hay with
  | nil => intro h; simp [hasSub, List.isEmpty] at h
  | cons hd t ih =>
    intro h
    simp only [hasSub, Bool.or_eq_true] at h
    rcases h with h | h
    · simp only [List.isPrefixOf, Bool.and_eq_true, beq_iff_eq] at h
      rw [h.1]
      exact List.mem_cons_self _ _
    · exact List.mem_cons_of_mem _ (ih h)

theorem mem_trimChars {c : Char} {cs : List Char} (h : c ∈ trimChars cs) :
    c ∈ cs := by
  unfold trimChars at h
  rw [List.mem_reverse] at h
  have h1 : c ∈ (cs.dropWhile (fun c => c == ' ')).reverse :=
    (List.dropWhile_sublist _).subset h
  rw [List.mem_reverse] at h1
  exact (List.dropWhile_sublist _).subset h1

theorem keepChar_of_mem_sanitize {c : Char} {st : String}
    (h : c ∈ (sanitizeStem st).data) : keepChar c = true := by
  have h1 : c ∈ st.toList.filter keepChar := mem_trimChars h
  exact (List.mem_filter.mp h1).2

theorem natDigits_digit :
    ∀ (fuel n : Nat), ∀ c ∈ natDigits fuel n, ∃ m, m < 10 ∧ c = Nat.digitChar m := by
  intro fuel
  induction fuel with
  | zero => intro n c h; simp [natDigits] at h
  | succ fuel ih =>
    intro n c h
    by_cases h10 : n < 10
    · simp only [natDigits, if_pos h10, List.mem_singleton] at h
      exact ⟨n, h10, h⟩
    · simp only [natDigits, if_neg h10, List.mem_append, List.mem_singleton] at h
      rcases h with h | h
      · exact ih (n / 10) c h
      · exact ⟨n % 10, Nat.mod_lt n (by omega), h⟩

theorem keepChar_digit : ∀ m, m < 10 → keepChar (Nat.digitChar m) = true := by decide

theorem keepChar_of_mem_natRepr {c : Char} {k : Nat} (h : c ∈ (natRepr k).data) :
    keepChar c = true := by
  obtain ⟨m, hm, rfl⟩ := natDigits_digit (k + 1) k c h
  exact keepChar_digit m hm

/-- The value a decimal digit list denotes (reading a rendered number
back). -/
def digitsVal (cs : List Char) : Nat :=
  cs.foldl (fun a c => 10 * a + (c.toNat - 48)) 0

theorem digitsVal_append_digit (xs : List Char) (c : Char) :
    digitsVal (xs ++ [c]) = 10 * digitsVal xs + (c.toNat - 48) := by
  simp [digitsVal, List.foldl_append]

theorem digitsVal_natDigits : ∀ (fuel n : Nat), n < fuel →
    digitsVal (natDigits fuel n) = n := by
  intro fuel
  induction fuel with
  | zero => intro n h; omega
  | succ fuel ih =>
    intro n h
    by_cases h10 : n < 10
    · have hd : ∀ m, m < 10 → digitsVal [Nat.digitChar m] = m := by decide
      simp only [natDigits, if_pos h10]
      exact hd n h10
    · simp only [natDigits, if_neg h10]
      rw [digitsVal_append_digit]
      have hdiv : n / 10 < fuel := by
        have := Nat.div_lt_self (by omega : 0 < n) (by omega : 1 < 10)
        omega
      rw [ih (n / 10) hdiv]
      have hmod : (Nat.digitChar (n % 10)).toNat - 48 = n % 10 := by
        have hall : ∀ m, m < 10 → (Nat.digitChar m).toNat - 48 = m := by decide
        exact hall (n % 10) (Nat.mod_lt n (by omega))
      rw [hmod]
      omega

theorem natRepr_inj (m n : Nat) (h : natRepr m = natRepr n) : m = n := by
  have hm := digitsVal_natDigits (m + 1) m (by omega)
  have hn := digitsVal_natDigits (n + 1) n (by omega)
  have hdata : natDigits (m + 1) m = natDigits (n + 1) n := congrArg String.data h
  rw [hdata] at hm
  omega

theorem stemAndSuffix_append (name : String) :
    (stemAndSuffix name).1 ++ (stemAndSuffix name).2 = name := by
  unfold stemAndSuffix
  cases h : lastDotIdx name.toList with
  | none => simp [String.append_empty]
  | some i =>
    by_cases hi : 0 < i ∧ i + 1 < name.toList.length
    · simp only [if_pos hi]
      show (⟨name.toList.take i⟩ : String) ++ ⟨name.toList.drop i⟩ = name
      have heq : (⟨name.toList.take i⟩ : String) ++ ⟨name.toList.drop i⟩
          = ⟨name.toList.take i ++ name.toList.drop i⟩ := rfl
      rw [heq, List.take_append_drop]
      rfl
    · dsimp only
      rw [if_neg hi]
      exact String.append_empty name

theorem candSeq_pos_inj (folder : FsPath) (filename : String) (m n : Nat)
    (h : candSeq folder filename (m + 1) = candSeq folder filename (n + 1)) :
    m = n := by
  simp only [candSeq] at h
  have h1 := List.append_cancel_left h
  have h2 : effectiveStem filename ++ "_" ++ natRepr (m + 1)
        ++ (stemAndSuffix (lastComponent filename)).2
      = effectiveStem filename ++ "_" ++ natRepr (n + 1)
        ++ (stemAndSuffix (lastComponent filename)).2 := by
    injection h1
  have h3 := congrArg String.data h2
  simp only [strAppend_data] at h3
  have h4 := List.append_cancel_right h3
  have h5 := List.append_cancel_left h4
  have h6 := natRepr_inj (m + 1) (n + 1) (String.ext h5)
  omega

theorem candSeq_zero_ne_pos (folder : FsPath) (filename : String) (m : Nat) :
    candSeq folder filename 0 ≠ candSeq folder filename (m + 1) := by
  intro h
  simp only [candSeq] at h
  have h1 := List.append_cancel_left h
  have hunf : lastComponent filename = (splitComponents filename).getLastD "" := rfl
  have hname : lastComponent filename
      = effectiveStem filename ++ "_" ++ natRepr (m + 1)
        ++ (stemAndSuffix (lastComponent filename)).2 := by
    conv_lhs => rw [hunf, h1]
    rfl
  have hss := stemAndSuffix_append (lastComponent filename)
  have hcomb : (stemAndSuffix (lastComponent filename)).1
        ++ (stemAndSuffix (lastComponent filename)).2
      = effectiveStem filename ++ "_" ++ natRepr (m + 1)
        ++ (stemAndSuffix (lastComponent filename)).2 :=
    hss.trans hname
  have h3 := congrArg String.data hcomb
  simp only [strAppend_data] at h3
  have h4 := List.append_cancel_right h3
  -- h4 : st.data = (E.data ++ "_".data) ++ (natRepr (m+1)).data
  have hE : effectiveStem filename
      = if stemNeedsSanitize (stemAndSuffix (lastComponent filename)).1 then
          sanitizeStem (stemAndSuffix (lastComponent filename)).1
        else (stemAndSuffix (lastComponent filename)).1 := rfl
  by_cases hsan : stemNeedsSanitize (stemAndSuffix (lastComponent filename)).1 = true
  · -- sanitized stem: every character of the stem would be a kept character,
    -- contradicting the separator-like character that forced sanitization
    rw [hE, if_pos hsan] at h4
    have hkeep : ∀ c ∈ ((stemAndSuffix (lastComponent filename)).1).data,
        keepChar c = true := by
      intro c hc
      rw [h4] at hc
      simp only [List.mem_append] at hc
      rcases hc with (hc | hc) | hc
      · exact keepChar_of_mem_sanitize hc
      · have hu : c = '_' := by simpa using hc
        rw [hu]; decide
      · exact keepChar_of_mem_natRepr hc
    have hbad : ∃ c ∈ ((stemAndSuffix (lastComponent filename)).1).data,
        keepChar c = false := by
      unfold stemNeedsSanitize at hsan
      simp only [Bool.or_eq_true] at hsan
      rcases hsan with (hsub | hsl) | hbs
      · exact ⟨'.', mem_of_hasSub '.' ['.'] _ hsub, by decide⟩
      · exact ⟨'/', List.elem_iff.mp hsl, by decide⟩
      · exact ⟨'\\', List.elem_iff.mp hbs, by decide⟩
    obtain ⟨c, hcmem, hcbad⟩ := hbad
    rw [hkeep c hcmem] at hcbad
    exact Bool.noConfusion hcbad
  · -- unsanitized stem: the equation forces the stem to be a strict
    -- extension of itself, impossible by length
    simp only [Bool.not_eq_true] at hsan
    rw [hE, if_neg (by rw [hsan]; exact Bool.false_ne_true)] at h4
    have hlen := congrArg List.length h4
    simp only [List.length_append, List.length_singleton] at hlen
    omega

theorem candSeq_inj (folder : FsPath) (filename : String) (i j : Nat)
    (h : candSeq folder filename i = candSeq folder filename j) : i = j := by
  match i, j with
  | 0, 0 => rfl
  | 0, j + 1 => exact absurd h (candSeq_zero_ne_pos folder filename j)
  | i + 1, 0 => exact absurd h.symm (candSeq_zero_ne_pos folder filename i)
  | i + 1, j + 1 => rw [candSeq_pos_inj folder filename i j h]

theorem exists_free_cand (fs : List FsPath) (folder : FsPath)
    (filename : String) :
    ∃ k, 1 ≤ k ∧ k ≤ fs.length + 1 ∧ candSeq folder filename k ∉ fs := by
  by_contra hcon
  push_neg at hcon
  have hmaps : ∀ a ∈ Finset.Icc 1 (fs.length + 1),
      candSeq folder filename a ∈ fs.toFinset := by
    intro a ha
    simp only [Finset.mem_Icc] at ha
    simp only [List.mem_toFinset]
    exact hcon a ha.1 ha.2
  have hinj : Set.InjOn (candSeq folder filename)
      ↑(Finset.Icc 1 (fs.length + 1)) := by
    intro a _ b _ hab
    exact candSeq_inj folder filename a b hab
  have hcard := Finset.card_le_card_of_injOn _ hmaps hinj
  rw [Nat.card_Icc] at hcard
  have htf := fs.toFinset_card_le
  omega

theorem findFree_not_mem (fs : List FsPath) (folder : FsPath)
    (filename : String) :
    ∀ (fuel k : Nat),
      (∃ j, k ≤ j ∧ j < k + fuel ∧ candSeq folder filename j ∉ fs) →
      findFree fs folder filename k fuel ∉ fs := by
  intro fuel
  induction fuel with
  | zero =>
    intro k h
    obtain ⟨j, h1, h2, _⟩ := h
    omega
  | succ fuel ih =>
    intro k h
    obtain ⟨j, h1, h2, h3⟩ := h
    by_cases hk : candSeq folder filename k ∈ fs
    · simp only [findFree, if_pos hk]
      apply ih (k + 1)
      refine ⟨j, ?_, by omega, h3⟩
      rcases Nat.eq_or_lt_of_le h1 with heq | hlt
      · exfalso; rw [← heq] at h3; exact h3 hk
      · omega
    · simp only [findFree, if_neg hk]
      exact hk

theorem findFree_eq (fs : List FsPath) (folder : FsPath) (filename : String) :
    ∀ (fuel k m : Nat), m < fuel →
      (∀ j, j < m → candSeq folder filename (k + j) ∈ fs) →
      candSeq folder filename (k + m) ∉ fs →
      findFree fs folder filename k fuel = candSeq folder filename (k + m) := by
  intro fuel
  induction fuel with
  | zero => intro k m h _ _; omega
  | succ fuel ih =>
    intro k m hm hall hfree
    cases m with
    | zero =>
      have hk : candSeq folder filename k ∉ fs := by
        rw [show k + 0 = k from rfl] at hfree
        exact hfree
      simp only [findFree, if_neg hk]
      rfl
    | succ m' =>
      have hk : candSeq folder filename k ∈ fs := by
        have := hall 0 (by omega)
        rw [show k + 0 = k from rfl] at this
        exact this
      simp only [findFree, if_pos hk]
      have hrec := ih (k + 1) m' (by omega)
        (fun j hj => by
          have hjj := hall (j + 1) (by omega)
          rw [show k + (j + 1) = k + 1 + j by omega] at hjj
          exact hjj)
        (by rw [show k + 1 + m' = k + (m' + 1) by omega]; exact hfree)
      rw [hrec, show k + 1 + m' = k + (m' + 1) by omega]

/-- The filesystem seen by the `i`-th repeated call of
`_get_unique_destination` with the same folder and filename: the results of
the earlier calls now exist. -/
def iterFs (fs : List FsPath) (folder : FsPath) (filename : String) :
    Nat → List FsPath
  | 0 => fs
  | i + 1 =>
    findFree (iterFs fs folder filename i) folder filename 0
        ((iterFs fs folder filename i).length + 2)
      :: iterFs fs folder filename i

/-- The path the `i`-th repeated call returns. -/
def iterResult (fs : List FsPath) (folder : FsPath) (filename : String)
    (i : Nat) : FsPath :=
  findFree (iterFs fs folder filename i) folder filename 0
    ((iterFs fs folder filename i).length + 2)

theorem iterFs_length (fs : List FsPath) (folder : FsPath) (filename : String) :
    ∀ i, (iterFs fs folder filename i).length = fs.length + i := by
  intro i
  induction i with
  | zero => rfl
  | succ i ih =>
    simp only [iterFs, List.length_cons, ih]
    omega

theorem mem_iterFs (fs : List FsPath) (folder : FsPath) (filename : String) :
    ∀ i p, p ∈ iterFs fs folder filename i ↔
      (p ∈ fs ∨ ∃ j, j < i ∧ p = iterResult fs folder filename j) := by
  intro i
  induction i with
  | zero =>
    intro p
    constructor
    · exact fun h => Or.inl h
    · rintro (h | ⟨j, hj, _⟩)
      · exact h
      · omega
  | succ i ih =>
    intro p
    simp only [iterFs, List.mem_cons]
    constructor
    · rintro (h | h)
      · exact Or.inr ⟨i, by omega, h⟩
      · rcases (ih p).mp h with h | ⟨j, hj, he⟩
        · exact Or.inl h
        · exact Or.inr ⟨j, by omega, he⟩
    · rintro (h | ⟨j, hj, he⟩)
      · exact Or.inr ((ih p).mpr (Or.inl h))
      · by_cases hji : j = i
        · subst hji; exact Or.inl he
        · exact Or.inr ((ih p).mpr (Or.inr ⟨j, by omega, he⟩))

theorem iterResult_not_mem (fs : List FsPath) (folder : FsPath)
    (filename : String) (i : Nat) :
    iterResult fs folder filename i ∉ iterFs fs folder filename i := by
  unfold iterResult
  apply findFree_not_mem
  obtain ⟨k, h1, h2, h3⟩ :=
    exists_free_cand (iterFs fs folder filename i) folder filename
  exact ⟨k, by omega, by omega, h3⟩

theorem iterResult_mem_later (fs : List FsPath) (folder : FsPath)
    (filename : String) (i : Nat) :
    ∀ j, i < j → iterResult fs folder filename i ∈ iterFs fs folder filename j := by
  intro j
  induction j with
  | zero => omega
  | succ j ih =>
    intro hij
    simp only [iterFs, List.mem_cons]
    by_cases h : i = j
    · subst h; exact Or.inl rfl
    · exact Or.inr (ih (by omega))

/-- C4: for every filesystem, folder, and accepted filename, each call of
`_get_unique_destination` returns a path that does not exist at call time;
with all previously returned paths now existing, repeated calls return
pairwise distinct paths; and when no candidate pre-exists, the `i`-th call
returns exactly the `i`-th candidate — the filename itself, then
`stem_1.suffix`, `stem_2.suffix`, …, with the counter starting at 1. -/
theorem get_unique_destination_spec (fs : List FsPath) (folder : FsPath)
    (filename : String) (hok : filename_rejected filename = false) :
    (∀ i, get_unique_destination (iterFs fs folder filename i) folder filename
        = Except.ok (iterResult fs folder filename i))
    ∧ (∀ i, iterResult fs folder filename i ∉ iterFs fs folder filename i)
    ∧ (∀ i j, i ≠ j →
        iterResult fs folder filename i ≠ iterResult fs folder filename j)
    ∧ ((∀ k, candSeq folder filename k ∉ fs) →
        ∀ i, iterResult fs folder filename i = candSeq folder filename i) := by
  refine ⟨?_, iterResult_not_mem fs folder filename, ?_, ?_⟩
  · intro i
    simp only [get_unique_destination, hok, Bool.false_eq_true, if_false]
    rfl
  · intro i j hne h
    rcases Nat.lt_or_ge i j with hij | hij
    · have hmem := iterResult_mem_later fs folder filename i j hij
      rw [h] at hmem
      exact iterResult_not_mem fs folder filename j hmem
    · have hji : j < i := by omega
      have hmem := iterResult_mem_later fs folder filename j i hji
      rw [← h] at hmem
      exact iterResult_not_mem fs folder filename i hmem
  · intro hnone i
    induction i using Nat.strong_induction_on with
    | _ i IH =>
      unfold iterResult
      have hfree : candSeq folder filename (0 + i)
          ∉ iterFs fs folder filename i := by
        rw [Nat.zero_add]
        intro hmem
        rcases (mem_iterFs fs folder filename i _).mp hmem with h | ⟨j, hj, he⟩
        · exact hnone i h
        · rw [IH j hj] at he
          have := candSeq_inj folder filename i j he
          omega
      have hall : ∀ j, j < i →
          candSeq folder filename (0 + j) ∈ iterFs fs folder filename i := by
        intro j hj
        rw [Nat.zero_add, ← IH j hj]
        exact iterResult_mem_later fs folder filename j i hj
      have heq := findFree_eq (iterFs fs folder filename i) folder filename
        ((iterFs fs folder filename i).length + 2) 0 i
        (by rw [iterFs_length]; omega) hall hfree
      rw [heq, Nat.zero_add]

theorem get_unique_destination_spec_w :
    ((∀ i, get_unique_destination
          (iterFs [] ["home", "u", "Downloads", "Documents"] "test.txt" i)
          ["home", "u", "Downloads", "Documents"] "test.txt"
        = Except.ok
            (iterResult [] ["home", "u", "Downloads", "Documents"] "test.txt" i))
    ∧ (∀ i, iterResult [] ["home", "u", "Downloads", "Documents"] "test.txt" i
        ∉ iterFs [] ["home", "u", "Downloads", "Documents"] "test.txt" i)
    ∧ (∀ i j, i ≠ j →
        iterResult [] ["home", "u", "Downloads", "Documents"] "test.txt" i
          ≠ iterResult [] ["home", "u", "Downloads", "Documents"] "test.txt" j)
    ∧ ((∀ k, candSeq ["home", "u", "Downloads", "Documents"] "test.txt" k ∉ ([] : List FsPath)) →
        ∀ i, iterResult [] ["home", "u", "Downloads", "Documents"] "test.txt" i
          = candSeq ["home", "u", "Downloads", "Documents"] "test.txt" i)) :=
  get_unique_destination_spec [] ["home", "u", "Downloads", "Documents"]
    "test.txt" (by rfl)

/-- C10: the filename `a/b.txt` passes the validation (no `..` substring, no
leading slash), and the first candidate is taken verbatim, so the returned
path sits in a nested subdirectory `a/` of the folder rather than being a
direct child; only the numbered collision candidates sanitize the stem, as
the second call shows. -/
theorem get_unique_destination_nested :
    get_unique_destination [] ["home", "u", "Downloads", "Documents"] "a/b.txt"
      = Except.ok ["home", "u", "Downloads", "Documents", "a", "b.txt"]
    ∧ (∀ x : String,
        (["home", "u", "Downloads", "Documents", "a", "b.txt"] : FsPath)
          ≠ ["home", "u", "Downloads", "Documents", x])
    ∧ get_unique_destination
        [["home", "u", "Downloads", "Documents", "a", "b.txt"]]
        ["home", "u", "Downloads", "Documents"] "a/b.txt"
      = Except.ok ["home", "u", "Downloads", "Documents", "b_1.txt"] := by
  refine ⟨rfl, ?_, rfl⟩
  intro x h
  have hlen := congrArg List.length h
  simp at hlen

/-- Outcome of the `shutil.move` call in `_process_file`: success, a
`PermissionError`/`OSError`, or any other exception. -/
inductive MoveOutcome where
  | ok
  | permOrOSError
  | otherError
deriving DecidableEq

/-- A record put on the status queue: a title and a text. -/
structure StatusMessage where
  title : String
  text : String
deriving DecidableEq

/-- A filesystem modification performed by the worker. -/
inductive Effect where
  | mkdirDir (p : FsPath)
  | movedFile (srcPath dstPath : FsPath)
deriving DecidableEq

/-- Model of `Path.name` for a path in component form: its final component. -/
def pathName (p : FsPath) : String := p.getLastD ""

/-- Method `SortWorker._process_file` — `src/orionis/sorter.py` lines 61–120,
returning the filesystem modifications performed and the status messages
emitted.  Oracle arguments stand for the filesystem's answers:
`existsIsFile` for `exists() and is_file()`, `obs` for the sizes the
stability wait reads, `mkdirOk` for whether `mkdir` succeeds (a failing
`mkdir` raises `PermissionError`/`OSError`, caught by the outer handler at
line 109), `fs` for the paths the uniqueness loop sees, and `moveOutcome`
for `shutil.move`.  Steps in source order: containment check on the
resolved path, existence check, stability wait, classification, safe join
plus `mkdir` of the category folder, unique destination plus containment
re-check, move, and status reporting. -/
def process_file (download_path : FsPath) (cats : CategoryMap)
    (file_path : FsPath) (existsIsFile : Bool) (obs : SizeTrace)
    (mkdirOk : Bool) (fs : List FsPath) (moveOutcome : MoveOutcome) :
    List Effect × List StatusMessage :=
  let fp := resolve file_path
  if isDescendantOf fp download_path = false then ([], [])
  else if existsIsFile = false then ([], [])
  else if wait_for_file_completion obs = false then ([], [])
  else
    let name := pathName fp
    let category := get_file_category cats (stemAndSuffix name).2
    match safe_path_join download_path [category] with
    | Except.error _ => ([], [])
    | Except.ok destination_folder =>
      if mkdirOk = false then
        ([], [{ title := "Move Error",
                text := "Could not move " ++ name ++ ". Check permissions." }])
      else
        match get_unique_destination fs destination_folder name with
        | Except.error _ => ([Effect.mkdirDir destination_folder], [])
        | Except.ok destination_path =>
          if isDescendantOf destination_path download_path = false then
            ([Effect.mkdirDir destination_folder], [])
          else
            match moveOutcome with
            | MoveOutcome.ok =>
              ([Effect.mkdirDir destination_folder,
                Effect.movedFile fp destination_path],
               [{ title := "File Sorted",
                  text := name ++ " was moved to " ++ category ++ "." }])
            | MoveOutcome.permOrOSError =>
              ([Effect.mkdirDir destination_folder],
               [{ title := "Move Error",
                  text := "Could not move " ++ name ++ ". Check permissions." }])
            | MoveOutcome.otherError =>
              ([Effect.mkdirDir destination_folder],
               [{ title := "Move Error",
                  text := "An unexpected error occurred with " ++ name ++ "." }])

/-- C3: a path whose canonical form is not inside the monitored root is
rejected before any filesystem modification — no folder is created, no move
happens, no message is emitted, whatever the other circumstances. -/
theorem process_file_rejects_outside (download_path : FsPath)
    (cats : CategoryMap) (file_path : FsPath) (existsIsFile : Bool)
    (obs : SizeTrace) (mkdirOk : Bool) (fs : List FsPath) (mo : MoveOutcome)
    (h : isDescendantOf (resolve file_path) download_path = false) :
    process_file download_path cats file_path existsIsFile obs mkdirOk fs mo
      = ([], []) := by
  simp [process_file, h]

theorem process_file_rejects_outside_w :
    process_file ["home", "u", "Downloads"] [("Images", [".jpg"])]
      ["home", "u", "Documents", "secret.txt"] true (fun _ => some 2000)
      true [] MoveOutcome.ok = ([], []) :=
  process_file_rejects_outside ["home", "u", "Downloads"]
    [("Images", [".jpg"])] ["home", "u", "Documents", "secret.txt"] true
    (fun _ => some 2000) true [] MoveOutcome.ok (by rfl)

/-- C6 counterexample: when the category folder's `mkdir` raises a
permission error, a `Move Error` status message is emitted even though the
file was not moved and the move itself never ran — so messages are not
limited to successful moves and failed moves. -/
theorem process_file_mkdir_error_message :
    process_file ["home", "u", "Downloads"] [("Images", [".jpg"])]
      ["home", "u", "Downloads", "photo.jpg"] true (fun _ => some 2000)
      false [] MoveOutcome.ok
      = ([], [{ title := "Move Error",
                text := "Could not move photo.jpg. Check permissions." }]) := rfl

/-- C6 amended: per-file processing emits the `File Sorted` message exactly
when the move was performed, and emits some message exactly when the
pipeline passed validation, existence and stability and then either the
category-folder `mkdir` raised a permission/OS error or a contained unique
destination was resolved and the move was attempted (succeeding or
failing); security rejections, vanished files, unstable files, traversal
category names, and invalid destination names stay message-free. -/
theorem process_file_message_characterization (download_path : FsPath)
    (cats : CategoryMap) (file_path : FsPath) (existsIsFile : Bool)
    (obs : SizeTrace) (mkdirOk : Bool) (fs : List FsPath) (mo : MoveOutcome) :
    ({ title := "File Sorted",
       text := pathName (resolve file_path) ++ " was moved to "
         ++ get_file_category cats
              (stemAndSuffix (pathName (resolve file_path))).2 ++ "." }
        ∈ (process_file download_path cats file_path existsIsFile obs mkdirOk
            fs mo).2
      ↔ ∃ d, Effect.movedFile (resolve file_path) d
          ∈ (process_file download_path cats file_path existsIsFile obs mkdirOk
              fs mo).1)
    ∧ ((process_file download_path cats file_path existsIsFile obs mkdirOk
          fs mo).2 ≠ []
      ↔ isDescendantOf (resolve file_path) download_path = true
        ∧ existsIsFile = true
        ∧ wait_for_file_completion obs = true
        ∧ ∃ folder,
            safe_path_join download_path
              [get_file_category cats
                (stemAndSuffix (pathName (resolve file_path))).2]
              = Except.ok folder
            ∧ (mkdirOk = false
               ∨ ∃ q, get_unique_destination fs folder
                    (pathName (resolve file_path)) = Except.ok q
                  ∧ isDescendantOf q download_path = true)) := by
  by_cases h1 : isDescendantOf (resolve file_path) download_path = false
  · simp [process_file, h1]
  · have h1t : isDescendantOf (resolve file_path) download_path = true := by
      simpa using h1
    by_cases h2 : existsIsFile = false
    · simp [process_file, h1, h2]
    · have h2t : existsIsFile = true := by simpa using h2
      by_cases h3 : wait_for_file_completion obs = false
      · simp [process_file, h1, h2, h3]
      · have h3t : wait_for_file_completion obs = true := by simpa using h3
        cases hsp : safe_path_join download_path
            [get_file_category cats
              (stemAndSuffix (pathName (resolve file_path))).2] with
        | error e => simp [process_file, h1, h2, h3, hsp]
        | ok folder =>
          by_cases hmk : mkdirOk = false
          · simp [process_file, h1, h2, h3, hsp, hmk, h1t, h2t, h3t]
          · have hmkt : mkdirOk = true := by simpa using hmk
            cases hud : get_unique_destination fs folder
                (pathName (resolve file_path)) with
            | error e =>
              simp [process_file, h1, h2, h3, hsp, hmk, hmkt, hud]
            | ok q =>
              by_cases hqd : isDescendantOf q download_path = false
              · simp [process_file, h1, h2, h3, hsp, hmk, hmkt, hud, hqd]
              · have hqdt : isDescendantOf q download_path = true := by
                  simpa using hqd
                cases mo with
                | ok =>
                  simp [process_file, h1, h2, h3, hsp, hmk, hmkt, hud, hqd,
                    h1t, h2t, h3t, hqdt]
                | permOrOSError =>
                  simp [process_file, h1, h2, h3, hsp, hmk, hmkt, hud, hqd,
                    h1t, h2t, h3t, hqdt]
                | otherError =>
                  simp [process_file, h1, h2, h3, hsp, hmk, hmkt, hud, hqd,
                    h1t, h2t, h3t, hqdt]
